import Mathlib

/-!
# Verification of the git-branchless core against its specification

The repository fragment under `src/` contains only the command-line surface
(`opts.rs`). The core engine (commit graph model, visibility layer, constraint
builder, rebase plan generator, rebase executor, event log) is specified in
`spec.md` but its code is not part of the fragment, so each component below is
modelled from the spec's own words and the claims are settled against that
model. The clap argument declarations (conflicting flags) come directly from
`src/src/opts.rs`.
-/

/-- Modelled from the spec: a commit has a content-addressed identifier,
an ordered sequence of parent identifiers, and a creation timestamp
(spec section 3, "Commit"). Identifiers are modelled as naturals. -/
structure Commit where
  id : Nat
  parents : List Nat
  timestamp : Nat
deriving DecidableEq

/-- Modelled from the spec: the loaded snapshot of commits
(spec section 3, "CommitGraph"). -/
structure CommitGraph where
  commits : List Commit
deriving DecidableEq

/-- The identifiers of all commits present in the loaded graph. -/
def commitIds (g : CommitGraph) : List Nat :=
  g.commits.map (fun c => c.id)

/-- Look a commit up by identifier. -/
def findCommit (g : CommitGraph) (x : Nat) : Option Commit :=
  g.commits.find? (fun c => c.id == x)

/-- The first (primary) parent of a commit, if any. -/
def parentOf (g : CommitGraph) (x : Nat) : Option Nat :=
  (findCommit g x).bind (fun c => c.parents.head?)

/-- The creation timestamp of a commit (0 for an identifier outside the
loaded window). -/
def timestampOf (g : CommitGraph) (x : Nat) : Nat :=
  ((findCommit g x).map (fun c => c.timestamp)).getD 0

/-- Modelled from the spec: `children(id)` — the commits whose parent list
contains the given identifier (spec section 4.1). -/
def childrenOf (g : CommitGraph) (x : Nat) : List Nat :=
  (g.commits.filter (fun c => decide (x ∈ c.parents))).map (fun c => c.id)

/-- One sweep of the worklist-style closure over the commit arena
(spec section 9: "explicit worklist traversal over the owned graph
snapshot (arena of commits indexed by identifier)"): every commit with a
parent already in the set gets its identifier added. -/
def expandStep (s : List Nat) (acc : List Nat) (c : Commit) : List Nat :=
  if (c.parents.any (fun p => decide (p ∈ s))) && decide (c.id ∉ acc) then
    acc ++ [c.id]
  else
    acc

/-- One saturation pass over the whole arena. -/
def expand (g : CommitGraph) (s : List Nat) : List Nat :=
  g.commits.foldl (expandStep s) s

/-- Iterated saturation passes. -/
def iterExpand (g : CommitGraph) : Nat → List Nat → List Nat
  | 0, s => s
  | k + 1, s => expand g (iterExpand g k s)

/-- Modelled from the spec: `descendants(id)` — every commit reachable from
the given commit via child edges (spec sections 4.1 and 4.2), computed by
saturating the child relation over the loaded arena. -/
def descendants (g : CommitGraph) (x : Nat) : List Nat :=
  iterExpand g ((commitIds g).length + 1) (childrenOf g x).dedup

/-- Modelled from the spec: a subtree is "a commit and all of its
descendants, treated as a unit to move" (spec glossary). -/
def subtreeOf (g : CommitGraph) (x : Nat) : List Nat :=
  x :: descendants g x

/-- Reachability along child edges, the ground-truth relation the
worklist closure must compute. -/
inductive Reaches (g : CommitGraph) : Nat → Nat → Prop
  | refl (x : Nat) : Reaches g x x
  | step {x y z : Nat} : Reaches g x y → z ∈ childrenOf g y → Reaches g x z

theorem mem_foldl_expandStep {s : List Nat} :
    ∀ (l : List Commit) (acc : List Nat) (x : Nat),
      x ∈ acc → x ∈ l.foldl (expandStep s) acc := by
  intro l
  induction l with
  | nil => intro acc x hx; simpa using hx
  | cons c rest ih =>
    intro acc x hx
    simp only [List.foldl_cons]
    apply ih
    unfold expandStep
    split
    · exact List.mem_append_left _ hx
    · exact hx

theorem mem_foldl_expandStep_elts {s : List Nat} :
    ∀ (l : List Commit) (acc : List Nat) (x : Nat),
      x ∈ l.foldl (expandStep s) acc → x ∈ acc ∨ x ∈ l.map (fun c => c.id) := by
  intro l
  induction l with
  | nil => intro acc x hx; simp at hx; exact Or.inl hx
  | cons c rest ih =>
    intro acc x hx
    simp only [List.foldl_cons] at hx
    rcases ih _ _ hx with h | h
    · unfold expandStep at h
      split at h
      · rcases List.mem_append.mp h with h' | h'
        · exact Or.inl h'
        · simp at h'
          subst h'
          exact Or.inr (by simp)
      · exact Or.inl h
    · exact Or.inr (by simp [h])

theorem expand_subset {g : CommitGraph} {s : List Nat} {x : Nat}
    (hx : x ∈ s) : x ∈ expand g s :=
  mem_foldl_expandStep _ _ _ hx

theorem expand_elts {g : CommitGraph} {s : List Nat} {x : Nat}
    (hx : x ∈ expand g s) : x ∈ s ∨ x ∈ commitIds g :=
  mem_foldl_expandStep_elts _ _ _ hx

theorem nodup_foldl_expandStep {s : List Nat} :
    ∀ (l : List Commit) (acc : List Nat), acc.Nodup →
      (l.foldl (expandStep s) acc).Nodup := by
  intro l
  induction l with
  | nil => intro acc h; simpa using h
  | cons c rest ih =>
    intro acc h
    simp only [List.foldl_cons]
    apply ih
    unfold expandStep
    split
    · rename_i hcond
      simp only [Bool.and_eq_true, decide_eq_true_eq] at hcond
      simp [List.nodup_append, h, hcond.2]
    · exact h

theorem expand_nodup {g : CommitGraph} {s : List Nat} (h : s.Nodup) :
    (expand g s).Nodup :=
  nodup_foldl_expandStep _ _ h

theorem length_foldl_expandStep {s : List Nat} :
    ∀ (l : List Commit) (acc : List Nat),
      acc.length ≤ (l.foldl (expandStep s) acc).length := by
  intro l
  induction l with
  | nil => intro acc; simp
  | cons c rest ih =>
    intro acc
    simp only [List.foldl_cons]
    refine le_trans ?_ (ih (expandStep s acc c))
    unfold expandStep
    split
    · simp
    · exact le_refl _

theorem foldl_expandStep_eq_of_length {s : List Nat} :
    ∀ (l : List Commit) (acc : List Nat),
      (l.foldl (expandStep s) acc).length ≤ acc.length →
      l.foldl (expandStep s) acc = acc := by
  intro l
  induction l with
  | nil => intro acc _; simp
  | cons c rest ih =>
    intro acc hlen
    simp only [List.foldl_cons] at hlen ⊢
    have hstep : expandStep s acc c = acc := by
      unfold expandStep
      split
      · exfalso
        have h1 : (acc ++ [c.id]).length ≤ (rest.foldl (expandStep s) (acc ++ [c.id])).length := by
          have := length_foldl_expandStep (s := s) rest (acc ++ [c.id])
          exact this
        have h2 : (rest.foldl (expandStep s) (expandStep s acc c)).length ≤ acc.length := hlen
        unfold expandStep at h2
        rw [if_pos (by assumption)] at h2
        have : (acc ++ [c.id]).length ≤ acc.length := le_trans h1 h2
        simp at this
      · rfl
    rw [hstep] at hlen ⊢
    exact ih _ hlen

theorem expand_growth (g : CommitGraph) (s : List Nat) :
    expand g s = s ∨ s.length < (expand g s).length := by
  rcases Nat.lt_or_ge s.length (expand g s).length with h | h
  · exact Or.inr h
  · exact Or.inl (foldl_expandStep_eq_of_length _ _ h)

theorem foldl_expandStep_adds {s : List Nat} {c : Commit}
    (hany : c.parents.any (fun p => decide (p ∈ s)) = true) :
    ∀ (l : List Commit) (acc : List Nat), c ∈ l →
      c.id ∈ l.foldl (expandStep s) acc := by
  intro l
  induction l with
  | nil => intro acc h; simp at h
  | cons c0 rest ih =>
    intro acc hc
    simp only [List.foldl_cons]
    rcases List.mem_cons.mp hc with heq | hmem
    · subst heq
      by_cases hin : c.id ∈ acc
      · exact mem_foldl_expandStep _ _ _ (by
          unfold expandStep
          split
          · exact List.mem_append_left _ hin
          · exact hin)
      · apply mem_foldl_expandStep
        unfold expandStep
        rw [if_pos (by simp [hany, hin])]
        simp
    · exact ih _ hmem

theorem expand_step_complete {g : CommitGraph} {s : List Nat} {y : Nat}
    {c : Commit} (hy : y ∈ s) (hc : c ∈ g.commits) (hp : y ∈ c.parents) :
    c.id ∈ expand g s := by
  apply foldl_expandStep_adds _ _ _ hc
  simp only [List.any_eq_true, decide_eq_true_eq]
  exact ⟨y, hp, hy⟩

theorem iterExpand_subset {g : CommitGraph} {s : List Nat} {x : Nat} :
    ∀ k, x ∈ s → x ∈ iterExpand g k s := by
  intro k hx
  induction k with
  | zero => exact hx
  | succ k ih => exact expand_subset ih

theorem iterExpand_elts {g : CommitGraph} {s : List Nat} {x : Nat} :
    ∀ k, x ∈ iterExpand g k s → x ∈ s ∨ x ∈ commitIds g := by
  intro k
  induction k with
  | zero => exact fun h => Or.inl h
  | succ k ih =>
    intro h
    rcases expand_elts h with h' | h'
    · exact ih h'
    · exact Or.inr h'

theorem iterExpand_nodup {g : CommitGraph} {s : List Nat} (h : s.Nodup) :
    ∀ k, (iterExpand g k s).Nodup := by
  intro k
  induction k with
  | zero => exact h
  | succ k ih => exact expand_nodup ih

theorem iterExpand_fix_stable {g : CommitGraph} {s : List Nat} {k : Nat}
    (hfix : expand g (iterExpand g k s) = iterExpand g k s) :
    ∀ j, iterExpand g (k + j) s = iterExpand g k s := by
  intro j
  induction j with
  | zero => rfl
  | succ j ih =>
    have : k + (j + 1) = (k + j) + 1 := by omega
    rw [this]
    show expand g (iterExpand g (k + j) s) = iterExpand g k s
    rw [ih, hfix]

theorem iterExpand_progress (g : CommitGraph) (s : List Nat) :
    ∀ k, (∃ j, j ≤ k ∧ expand g (iterExpand g j s) = iterExpand g j s) ∨
      s.length + k ≤ (iterExpand g k s).length := by
  intro k
  induction k with
  | zero => exact Or.inr (by simp [iterExpand])
  | succ k ih =>
    rcases ih with ⟨j, hj, hfix⟩ | hlen
    · exact Or.inl ⟨j, Nat.le_succ_of_le hj, hfix⟩
    · rcases expand_growth g (iterExpand g k s) with hfix | hgrow
      · exact Or.inl ⟨k, Nat.le_succ k, hfix⟩
      · refine Or.inr ?_
        show s.length + (k + 1) ≤ (expand g (iterExpand g k s)).length
        omega

theorem nodup_length_le {l₁ l₂ : List Nat} (h : l₁.Nodup)
    (hsub : ∀ x ∈ l₁, x ∈ l₂) : l₁.length ≤ l₂.length :=
  (List.subperm_of_subset h hsub).length_le

theorem iterExpand_closed (g : CommitGraph) (s : List Nat) (hnd : s.Nodup) :
    expand g (iterExpand g ((commitIds g).length + 1) s) =
      iterExpand g ((commitIds g).length + 1) s := by
  set B := (commitIds g).length + 1 with hB
  rcases iterExpand_progress g s B with ⟨j, hj, hfix⟩ | hlen
  · have hstable := iterExpand_fix_stable hfix (B - j)
    have : j + (B - j) = B := by omega
    rw [this] at hstable
    rw [hstable]
    exact hfix
  · exfalso
    have hnd' : (iterExpand g B s).Nodup := iterExpand_nodup hnd B
    have hsub' : ∀ x ∈ iterExpand g B s, x ∈ s ++ commitIds g := by
      intro x hx
      rcases iterExpand_elts B hx with h | h
      · exact List.mem_append_left _ h
      · exact List.mem_append_right _ h
    have := nodup_length_le hnd' hsub'
    simp only [List.length_append] at this
    omega

theorem mem_childrenOf {g : CommitGraph} {y z : Nat} :
    z ∈ childrenOf g y ↔ ∃ c, c ∈ g.commits ∧ c.id = z ∧ y ∈ c.parents := by
  unfold childrenOf
  simp only [List.mem_map, List.mem_filter, decide_eq_true_eq]
  constructor
  · rintro ⟨c, ⟨hc, hp⟩, hid⟩
    exact ⟨c, hc, hid, hp⟩
  · rintro ⟨c, hc, hid, hp⟩
    exact ⟨c, ⟨hc, hp⟩, hid⟩

theorem children_subset_descendants {g : CommitGraph} {x z : Nat}
    (h : z ∈ childrenOf g x) : z ∈ descendants g x := by
  unfold descendants
  exact iterExpand_subset _ (List.mem_dedup.mpr h)

theorem descendants_closed {g : CommitGraph} {x y z : Nat}
    (hy : y ∈ descendants g x) (hz : z ∈ childrenOf g y) :
    z ∈ descendants g x := by
  rcases mem_childrenOf.mp hz with ⟨c, hc, hid, hp⟩
  have hclosed := iterExpand_closed g (childrenOf g x).dedup (List.nodup_dedup _)
  unfold descendants at hy ⊢
  rw [← hclosed]
  rw [← hid]
  exact expand_step_complete hy hc hp

/-- Completeness of the worklist closure: anything reachable via child
edges is either the start commit itself or found among its descendants. -/
theorem reaches_mem_subtree {g : CommitGraph} {x d : Nat}
    (h : Reaches g x d) : d ∈ subtreeOf g x := by
  induction h with
  | refl => exact List.mem_cons_self _ _
  | step hr hc ih =>
    rcases List.mem_cons.mp ih with heq | hmem
    · subst heq
      exact List.mem_cons_of_mem _ (children_subset_descendants hc)
    · exact List.mem_cons_of_mem _ (descendants_closed hmem hc)

/-! ## Visibility layer (spec section 4.2) -/

/-- Modelled from the spec: the set of commits a hide/unhide call affects.
With `recursive` set it is each given commit together with every descendant
reachable via child edges; recursion does not consult the current hidden
state (spec sections 4.2 and 9). -/
def hideTargets (g : CommitGraph) (ids : List Nat) (recursive : Bool) : List Nat :=
  if recursive then (ids.map (subtreeOf g)).flatten else ids

/-- Modelled from the spec: `hide(ids, recursive)` marks each target hidden;
hiding an already-hidden commit is a no-op for that commit
(spec section 4.2). The hidden set is a list of identifiers. -/
def hideCommits (g : CommitGraph) (ids : List Nat) (recursive : Bool)
    (hidden : List Nat) : List Nat :=
  hidden ++ (hideTargets g ids recursive).filter (fun x => decide (x ∉ hidden))

/-- Modelled from the spec: `unhide(ids, recursive)` is the symmetric
removal from the hidden set; with `recursive` set it unhides each given
commit and all of its descendants unconditionally (spec sections 4.2
and 9). -/
def unhideCommits (g : CommitGraph) (ids : List Nat) (recursive : Bool)
    (hidden : List Nat) : List Nat :=
  hidden.filter (fun x => decide (x ∉ hideTargets g ids recursive))

/-- Modelled from the spec: `is_visible(id)` is true iff not hidden
(spec section 4.2). -/
def isVisible (hidden : List Nat) (x : Nat) : Bool :=
  decide (x ∉ hidden)

/-! ## Event log (spec sections 3 and 4.2/4.5, "Event", "EventLog") -/

/-- Modelled from the spec: event kinds RewriteEvent, RefUpdateEvent,
HideEvent, UnhideEvent, CheckoutEvent with payloads sufficient to compute
an inverse (spec section 3, "Event"). -/
inductive Event where
  | rewriteEv (oldId newId : Nat)
  | refUpdateEv (name : String) (oldTarget newTarget : Option Nat)
  | hideEv (commit : Nat)
  | unhideEv (commit : Nat)
  | checkoutEv (oldId newId : Nat)
deriving DecidableEq

/-- Modelled from the spec: an append-only ordered sequence of events
grouped into transaction batches (one batch per command invocation), plus
a cursor marking the current logical position (spec section 3,
"EventLog"). -/
structure EventLog where
  batches : List (List Event)
  cursor : Nat
deriving DecidableEq

/-- The ref and visibility state reconstructed from the event log
(spec section 3, "EventLog" invariant). -/
structure MatState where
  refs : List (String × Nat)
  hidden : List Nat
deriving DecidableEq

/-- Modelled from the spec: applying a single event to the materialized
ref/visibility state. -/
def applyEvent (st : MatState) (e : Event) : MatState :=
  match e with
  | .rewriteEv _ _ => st
  | .refUpdateEv name _ newTarget =>
    match newTarget with
    | some t =>
      { refs := (st.refs.filter (fun r => decide (r.1 ≠ name))) ++ [(name, t)],
        hidden := st.hidden }
    | none =>
      { refs := st.refs.filter (fun r => decide (r.1 ≠ name)), hidden := st.hidden }
  | .hideEv c =>
    if decide (c ∈ st.hidden) then st
    else { refs := st.refs, hidden := st.hidden ++ [c] }
  | .unhideEv c =>
    { refs := st.refs, hidden := st.hidden.filter (fun x => decide (x ≠ c)) }
  | .checkoutEv _ _ => st

/-- Modelled from the spec: replaying all events from sequence 0 up to the
cursor, in order, against the empty initial state (spec section 3,
"EventLog" invariant). -/
def replay (batches : List (List Event)) (cursor : Nat) : MatState :=
  ((batches.take cursor).flatten).foldl applyEvent { refs := [], hidden := [] }

/-- The state the event log's cursor currently denotes. -/
def replayState (log : EventLog) : MatState :=
  replay log.batches log.cursor

/-- Modelled from the spec: a successful command appends exactly one
transaction batch and leaves the cursor at the end of the log
(spec sections 3 and 8). Records are appended, never rewritten. -/
def commitBatch (log : EventLog) (batch : List Event) : EventLog :=
  { batches := log.batches ++ [batch], cursor := log.batches.length + 1 }

/-- Modelled from the spec: `undo()` moves the cursor one batch backward
(spec section 6, cursor navigation). -/
def undo (log : EventLog) : EventLog :=
  { batches := log.batches, cursor := log.cursor - 1 }

/-- Modelled from the spec: `redo()` moves the cursor one batch forward,
when a later batch exists (spec section 6, cursor navigation). -/
def redo (log : EventLog) : EventLog :=
  if log.cursor < log.batches.length then
    { batches := log.batches, cursor := log.cursor + 1 }
  else
    log

theorem commitBatch_batches_length (log : EventLog) (batch : List Event) :
    (commitBatch log batch).batches.length = log.batches.length + 1 := by
  simp [commitBatch]

theorem redo_undo_commitBatch (log : EventLog) (batch : List Event) :
    redo (undo (commitBatch log batch)) = commitBatch log batch := by
  simp [redo, undo, commitBatch]

/-! ## Errors (spec section 7) -/

/-- Modelled from the spec: `ConstraintError` — cyclic move, ambiguous or
conflicting source+base, or a missing rewrite mapping for a required
parent (spec sections 4.3 and 7). -/
inductive ConstraintError where
  | cyclicMove
  | ambiguousSourceBase
  | noRewriteFound
deriving DecidableEq

/-- Modelled from the spec: `PlanError` — unsatisfiable ordering or a
constrained identifier absent from the graph (spec section 4.4). -/
inductive PlanError where
  | cycle
  | missingCommit
deriving DecidableEq

/-! ## Constraint builder (spec section 4.3) -/

/-- Modelled from the spec: a constraint is a pair (commit identifier to
move, target new-parent identifier) (spec section 3, "Constraint"). -/
structure Constraint where
  commit : Nat
  newParent : Nat
deriving DecidableEq

/-- Whether `a` is `b` or an ancestor of `b` in the loaded graph. -/
def isAncestorOrEq (g : CommitGraph) (a b : Nat) : Bool :=
  decide (b ∈ subtreeOf g a)

/-- Walk upward from a commit along first parents, collecting the visited
identifiers (bounded by the given fuel). -/
def walkUp (g : CommitGraph) : Nat → Nat → List Nat
  | 0, x => [x]
  | fuel + 1, x =>
    x :: (match parentOf g x with
          | some p => walkUp g fuel p
          | none => [])

/-- Modelled from the spec: the point where the ancestry of `base`
diverges from the main branch tip — the nearest ancestor-or-self of
`base` that is also an ancestor of the main branch tip
(spec section 4.3). -/
def divergencePoint (g : CommitGraph) (mainTip base : Nat) : Nat :=
  ((walkUp g g.commits.length base).find?
    (fun x => isAncestorOrEq g x mainTip)).getD base

/-- Modelled from the spec: the enclosing stack of `base` — every commit
from the divergence point (inclusive) to all reachable descendants
(spec section 4.3). -/
def enclosingStack (g : CommitGraph) (mainTip base : Nat) : List Nat :=
  subtreeOf g (divergencePoint g mainTip base)

/-- Modelled from the spec: resolving the moving subtree from the optional
source and base commits. Both given is a configuration error; a source
moves its own subtree; a base (or, when neither is given, the current
head used as base) moves the enclosing stack (spec section 4.3). -/
def resolveMoveSubtree (g : CommitGraph) (mainTip headCommit : Nat)
    (source base : Option Nat) : Except ConstraintError (List Nat) :=
  match source, base with
  | some _, some _ => .error .ambiguousSourceBase
  | some s, none => .ok (subtreeOf g s)
  | none, some b => .ok (enclosingStack g mainTip b)
  | none, none => .ok (enclosingStack g mainTip headCommit)

/-- Modelled from the spec: the destination defaults to the current head
when not provided (spec section 4.3 and `opts.rs` lines 100-103). -/
def resolveDest (dest : Option Nat) (headCommit : Nat) : Nat :=
  dest.getD headCommit

/-- Modelled from the spec: the destination would create a cycle when it
is itself inside the subtree or a descendant of a subtree member
(spec section 4.3). -/
def isCyclicDest (g : CommitGraph) (subtree : List Nat) (dest : Nat) : Bool :=
  decide (dest ∈ subtree) ||
    subtree.any (fun m => decide (dest ∈ descendants g m))

/-- Modelled from the spec: each non-root commit of the subtree points at
its original parent (whose to-be-rewritten counterpart the executor will
substitute), and subtree-root commits point directly at the destination
(spec section 4.3). -/
def constraintFor (g : CommitGraph) (subtree : List Nat) (dest : Nat)
    (c : Nat) : Constraint :=
  match parentOf g c with
  | some p =>
    if decide (p ∈ subtree) then { commit := c, newParent := p }
    else { commit := c, newParent := dest }
  | none => { commit := c, newParent := dest }

/-- Modelled from the spec: building the constraints for a move, failing
with `ConstraintError.cyclicMove` before any mutation if the destination
lies within the subtree (spec section 4.3). -/
def buildMoveConstraints (g : CommitGraph) (subtree : List Nat) (dest : Nat) :
    Except ConstraintError (List Constraint) :=
  if isCyclicDest g subtree dest then .error .cyclicMove
  else .ok (subtree.map (constraintFor g subtree dest))

/-! ## Rebase plan generator (spec section 4.4) -/

/-- Modelled from the spec: the tie-breaking key — ascending original
commit timestamp, then identifier (spec section 4.4). -/
def keyOf (g : CommitGraph) (c : Constraint) : Nat × Nat :=
  (timestampOf g c.commit, c.commit)

/-- Lexicographic comparison of tie-breaking keys. -/
def keyLeB (a b : Nat × Nat) : Bool :=
  decide (a.1 < b.1 ∨ (a.1 = b.1 ∧ a.2 ≤ b.2))

theorem keyLeB_refl (a : Nat × Nat) : keyLeB a a = true := by
  simp [keyLeB]

theorem keyLeB_trans {a b c : Nat × Nat} (h1 : keyLeB a b = true)
    (h2 : keyLeB b c = true) : keyLeB a c = true := by
  simp only [keyLeB, decide_eq_true_eq] at h1 h2 ⊢
  omega

theorem keyLeB_total (a b : Nat × Nat) :
    keyLeB a b = true ∨ keyLeB b a = true := by
  simp only [keyLeB, decide_eq_true_eq]
  omega

/-- A constraint can be scheduled once its new-parent's own reassignment
is no longer pending among the remaining constraints
(spec section 4.4). -/
def eligibleB (remaining : List Constraint) (c : Constraint) : Bool :=
  decide (c.newParent ∉ remaining.map (fun x => x.commit))

/-- Keep whichever of two constraints has the smaller tie-breaking key. -/
def chooseMin (g : CommitGraph) (best x : Constraint) : Constraint :=
  if keyLeB (keyOf g x) (keyOf g best) then x else best

/-- Among the remaining constraints, pick the schedulable one with the
least (timestamp, identifier) key, if any (spec section 4.4). -/
def pickMin (g : CommitGraph) (remaining : List Constraint) :
    Option Constraint :=
  match remaining.filter (eligibleB remaining) with
  | [] => none
  | e :: es => some (es.foldl (chooseMin g) e)

theorem foldl_chooseMin_mem (g : CommitGraph) :
    ∀ (es : List Constraint) (e : Constraint),
      es.foldl (chooseMin g) e ∈ e :: es := by
  intro es
  induction es with
  | nil => intro e; simp
  | cons x es ih =>
    intro e
    simp only [List.foldl_cons]
    rcases List.mem_cons.mp (ih (chooseMin g e x)) with h | h
    · rw [h]
      unfold chooseMin
      split
      · simp
      · simp
    · exact List.mem_cons_of_mem _ (List.mem_cons_of_mem _ h)

theorem chooseMin_le_left (g : CommitGraph) (e x : Constraint) :
    keyLeB (keyOf g (chooseMin g e x)) (keyOf g e) = true := by
  unfold chooseMin
  split
  · assumption
  · exact keyLeB_refl _

theorem chooseMin_le_right (g : CommitGraph) (e x : Constraint) :
    keyLeB (keyOf g (chooseMin g e x)) (keyOf g x) = true := by
  unfold chooseMin
  split
  · exact keyLeB_refl _
  · rcases keyLeB_total (keyOf g x) (keyOf g e) with h | h
    · simp_all
    · exact h

theorem foldl_chooseMin_min (g : CommitGraph) :
    ∀ (es : List Constraint) (e : Constraint) (y : Constraint),
      y ∈ e :: es →
      keyLeB (keyOf g (es.foldl (chooseMin g) e)) (keyOf g y) = true := by
  intro es
  induction es with
  | nil =>
    intro e y hy
    simp at hy
    subst hy
    exact keyLeB_refl _
  | cons x es ih =>
    intro e y hy
    simp only [List.foldl_cons]
    have hbase : keyLeB (keyOf g (es.foldl (chooseMin g) (chooseMin g e x)))
        (keyOf g (chooseMin g e x)) = true :=
      ih (chooseMin g e x) (chooseMin g e x) (List.mem_cons_self _ _)
    rcases List.mem_cons.mp hy with h | h
    · subst h
      exact keyLeB_trans hbase (chooseMin_le_left g y x)
    · rcases List.mem_cons.mp h with h' | h'
      · subst h'
        exact keyLeB_trans hbase (chooseMin_le_right g e y)
      · exact ih (chooseMin g e x) y (List.mem_cons_of_mem _ h')

theorem pickMin_mem {g : CommitGraph} {remaining : List Constraint}
    {c : Constraint} (h : pickMin g remaining = some c) : c ∈ remaining := by
  unfold pickMin at h
  cases hf : remaining.filter (eligibleB remaining) with
  | nil => rw [hf] at h; simp at h
  | cons e es =>
    rw [hf] at h
    simp only [Option.some.injEq] at h
    have hmem : c ∈ e :: es := h ▸ foldl_chooseMin_mem g es e
    have : c ∈ remaining.filter (eligibleB remaining) := hf ▸ hmem
    exact (List.mem_filter.mp this).1

theorem pickMin_eligible {g : CommitGraph} {remaining : List Constraint}
    {c : Constraint} (h : pickMin g remaining = some c) :
    eligibleB remaining c = true := by
  unfold pickMin at h
  cases hf : remaining.filter (eligibleB remaining) with
  | nil => rw [hf] at h; simp at h
  | cons e es =>
    rw [hf] at h
    simp only [Option.some.injEq] at h
    have hmem : c ∈ e :: es := h ▸ foldl_chooseMin_mem g es e
    have : c ∈ remaining.filter (eligibleB remaining) := hf ▸ hmem
    exact (List.mem_filter.mp this).2

theorem pickMin_min {g : CommitGraph} {remaining : List Constraint}
    {c : Constraint} (h : pickMin g remaining = some c) :
    ∀ c' ∈ remaining, eligibleB remaining c' = true →
      keyLeB (keyOf g c) (keyOf g c') = true := by
  intro c' hc' helig
  unfold pickMin at h
  cases hf : remaining.filter (eligibleB remaining) with
  | nil => rw [hf] at h; simp at h
  | cons e es =>
    rw [hf] at h
    simp only [Option.some.injEq] at h
    have hmem : c' ∈ remaining.filter (eligibleB remaining) :=
      List.mem_filter.mpr ⟨hc', helig⟩
    rw [hf] at hmem
    rw [← h]
    exact foldl_chooseMin_min g es e c' hmem

/-- Modelled from the spec: topologically order the constrained commits,
at each step scheduling the eligible constraint with the least
(timestamp, identifier) key; fail with `PlanError.cycle` when no valid
order exists (spec section 4.4). The fuel equals the number of
constraints, which one removal per step consumes exactly. -/
def buildPlanAux (g : CommitGraph) : Nat → List Constraint → Except PlanError (List Constraint)
  | _, [] => .ok []
  | 0, _ :: _ => .error .cycle
  | fuel + 1, c0 :: rest0 =>
    match pickMin g (c0 :: rest0) with
    | none => .error .cycle
    | some c =>
      match buildPlanAux g fuel ((c0 :: rest0).erase c) with
      | .ok restPlan => .ok (c :: restPlan)
      | .error e => .error e

/-- Modelled from the spec: the plan generator — a missing constrained
identifier is `PlanError.missingCommit`, otherwise the deterministic
topological ordering (spec section 4.4). -/
def buildPlan (g : CommitGraph) (constraints : List Constraint) :
    Except PlanError (List Constraint) :=
  if constraints.any (fun c => (findCommit g c.commit).isNone) then
    .error .missingCommit
  else
    buildPlanAux g constraints.length constraints

/-- The RebasePlan invariant (spec section 3): at every position, the
operation's new-parent is not among the commits produced at that position
or later, so any producer of it appears strictly earlier. -/
def topoOkB : List Constraint → Bool
  | [] => true
  | c :: rest =>
    decide (c.newParent ∉ (c :: rest).map (fun x => x.commit)) && topoOkB rest

/-- Determinism of tie-breaking (spec section 4.4): whenever a later
operation was already schedulable at the point an earlier operation was
chosen (its new-parent is not produced by the suffix starting at the
earlier position), the earlier operation's (timestamp, identifier) key is
no greater. -/
def tieBreakOk (g : CommitGraph) : List Constraint → Prop
  | [] => True
  | c :: rest =>
    (∀ c' ∈ rest, c'.newParent ∉ (c :: rest).map (fun x => x.commit) →
      keyLeB (keyOf g c) (keyOf g c') = true) ∧ tieBreakOk g rest

theorem buildPlanAux_perm (g : CommitGraph) :
    ∀ (fuel : Nat) (remaining plan : List Constraint),
      buildPlanAux g fuel remaining = .ok plan → plan.Perm remaining := by
  intro fuel
  induction fuel with
  | zero =>
    intro remaining plan h
    cases remaining with
    | nil =>
      simp only [buildPlanAux] at h
      cases h
      exact List.Perm.refl _
    | cons c0 rest0 => simp [buildPlanAux] at h
  | succ fuel ih =>
    intro remaining plan h
    cases remaining with
    | nil =>
      simp only [buildPlanAux] at h
      cases h
      exact List.Perm.refl _
    | cons c0 rest0 =>
      simp only [buildPlanAux] at h
      split at h
      · simp at h
      · rename_i c hp
        split at h
        · rename_i restPlan hb
          simp only [Except.ok.injEq] at h
          subst h
          have hperm := ih _ _ hb
          exact (hperm.cons c).trans (List.perm_cons_erase (pickMin_mem hp)).symm
        · simp at h

theorem buildPlanAux_topo (g : CommitGraph) :
    ∀ (fuel : Nat) (remaining plan : List Constraint),
      buildPlanAux g fuel remaining = .ok plan → topoOkB plan = true := by
  intro fuel
  induction fuel with
  | zero =>
    intro remaining plan h
    cases remaining with
    | nil => simp only [buildPlanAux] at h; cases h; rfl
    | cons c0 rest0 => simp [buildPlanAux] at h
  | succ fuel ih =>
    intro remaining plan h
    cases remaining with
    | nil => simp only [buildPlanAux] at h; cases h; rfl
    | cons c0 rest0 =>
      simp only [buildPlanAux] at h
      split at h
      · simp at h
      · rename_i c hp
        split at h
        · rename_i restPlan hb
          simp only [Except.ok.injEq] at h
          subst h
          have hperm : (c :: restPlan).Perm (c0 :: rest0) :=
            ((buildPlanAux_perm g fuel _ _ hb).cons c).trans
              (List.perm_cons_erase (pickMin_mem hp)).symm
          have helig := pickMin_eligible hp
          simp only [eligibleB, decide_eq_true_eq] at helig
          have hnotin : c.newParent ∉ (c :: restPlan).map (fun x => x.commit) := by
            intro hmem
            exact helig (((hperm.map (fun x => x.commit)).mem_iff).mp hmem)
          simp only [topoOkB, Bool.and_eq_true, decide_eq_true_eq]
          exact ⟨hnotin, ih _ _ hb⟩
        · simp at h

theorem buildPlanAux_tiebreak (g : CommitGraph) :
    ∀ (fuel : Nat) (remaining plan : List Constraint),
      buildPlanAux g fuel remaining = .ok plan → tieBreakOk g plan := by
  intro fuel
  induction fuel with
  | zero =>
    intro remaining plan h
    cases remaining with
    | nil => simp only [buildPlanAux] at h; cases h; trivial
    | cons c0 rest0 => simp [buildPlanAux] at h
  | succ fuel ih =>
    intro remaining plan h
    cases remaining with
    | nil => simp only [buildPlanAux] at h; cases h; trivial
    | cons c0 rest0 =>
      simp only [buildPlanAux] at h
      split at h
      · simp at h
      · rename_i c hp
        split at h
        · rename_i restPlan hb
          simp only [Except.ok.injEq] at h
          subst h
          have hperm : (c :: restPlan).Perm (c0 :: rest0) :=
            ((buildPlanAux_perm g fuel _ _ hb).cons c).trans
              (List.perm_cons_erase (pickMin_mem hp)).symm
          refine ⟨?_, ih _ _ hb⟩
          intro c' hc' hnp
          have hc'mem : c' ∈ c0 :: rest0 :=
            hperm.mem_iff.mp (List.mem_cons_of_mem _ hc')
          have helig : eligibleB (c0 :: rest0) c' = true := by
            simp only [eligibleB, decide_eq_true_eq]
            intro hmem
            exact hnp (((hperm.map (fun x => x.commit)).mem_iff).mpr hmem)
          exact pickMin_min hp c' hc'mem helig
        · simp at h

theorem topoOkB_indexed :
    ∀ (plan : List Constraint), topoOkB plan = true →
      ∀ (i j : Nat) (hi : i < plan.length) (hj : j < plan.length),
        (plan.get ⟨i, hi⟩).commit = (plan.get ⟨j, hj⟩).newParent → i < j := by
  intro plan
  induction plan with
  | nil => intro _ i j hi _ _; simp at hi
  | cons c rest ih =>
    intro h i j hi hj heq
    simp only [topoOkB, Bool.and_eq_true, decide_eq_true_eq] at h
    cases j with
    | zero =>
      exfalso
      apply h.1
      have hj0 : (c :: rest).get ⟨0, hj⟩ = c := rfl
      rw [hj0] at heq
      rw [← heq]
      exact List.mem_map.mpr ⟨(c :: rest).get ⟨i, hi⟩, List.get_mem _ _ _, rfl⟩
    | succ j' =>
      cases i with
      | zero => exact Nat.succ_pos j'
      | succ i' =>
        have hi' : i' < rest.length := Nat.lt_of_succ_lt_succ hi
        have hj' : j' < rest.length := Nat.lt_of_succ_lt_succ hj
        have heq' : (rest.get ⟨i', hi'⟩).commit = (rest.get ⟨j', hj'⟩).newParent := heq
        have := ih h.2 i' j' hi' hj' heq'
        omega

/-- The properties claimed of every generated RebasePlan: the topological
invariant (in both its running-suffix and strictly-earlier-index forms),
the (timestamp, identifier) tie-breaking discipline, and that the plan is
exactly the constrained commits. -/
def planOk (g : CommitGraph) (constraints plan : List Constraint) : Prop :=
  topoOkB plan = true
  ∧ (∀ (i j : Nat) (hi : i < plan.length) (hj : j < plan.length),
      (plan.get ⟨i, hi⟩).commit = (plan.get ⟨j, hj⟩).newParent → i < j)
  ∧ tieBreakOk g plan
  ∧ plan.Perm constraints

theorem buildPlan_planOk {g : CommitGraph} {constraints plan : List Constraint}
    (h : buildPlan g constraints = .ok plan) : planOk g constraints plan := by
  unfold buildPlan at h
  split at h
  · simp at h
  · have htopo := buildPlanAux_topo g constraints.length constraints plan h
    exact ⟨htopo, topoOkB_indexed plan htopo,
      buildPlanAux_tiebreak g constraints.length constraints plan h,
      buildPlanAux_perm g constraints.length constraints plan h⟩

/-! ## Rebase executor (spec section 4.5) -/

/-- The strategy-forcing flags of `git move` / `git restack`
(`src/src/opts.rs` lines 105-113 and 132-140). -/
structure RebaseOptions where
  force_in_memory : Bool
  force_on_disk : Bool
deriving DecidableEq

/-- Modelled from the spec: a successful execution produces the rewrite
mapping old identifier → new identifier, one entry per operation
(spec section 3, "RewriteMapping"). The new content-addressed identifier
is abstracted as a function of the old one. -/
def rewriteMappingOf (fresh : Nat → Nat) (plan : List Constraint) :
    List (Nat × Nat) :=
  plan.map (fun op => (op.commit, fresh op.commit))

/-- Modelled from the spec: the in-memory strategy is atomic at the plan
level — either every operation succeeds and the rewrite mapping is
produced, or any merge conflict discards the entire attempt with zero
visible effect (spec section 4.5). `memConflicts` is the set of commits
whose composition hits a merge conflict. -/
def execInMemory (fresh : Nat → Nat) (memConflicts : List Nat)
    (plan : List Constraint) : Option (List (Nat × Nat)) :=
  if plan.any (fun op => decide (op.commit ∈ memConflicts)) then none
  else some (rewriteMappingOf fresh plan)

/-- Modelled from the spec: the on-disk strategy applies operations
sequentially and can stop at a conflict, leaving the prefix applied
(spec section 4.5). Returns the applied mapping and whether the whole
plan succeeded. -/
def execOnDisk (fresh : Nat → Nat) (diskConflicts : List Nat)
    (plan : List Constraint) : List (Nat × Nat) × Bool :=
  (rewriteMappingOf fresh
      (plan.takeWhile (fun op => decide (op.commit ∉ diskConflicts))),
   plan.all (fun op => decide (op.commit ∉ diskConflicts)))

/-- The outcome of executing a rebase plan. -/
inductive ExecOutcome where
  | success (mapping : List (Nat × Nat))
  | conflictInMemory
  | conflictOnDisk (partialMapping : List (Nat × Nat))
deriving DecidableEq

/-- Run the on-disk strategy and package its outcome. -/
def execOnDiskOutcome (fresh : Nat → Nat) (diskConflicts : List Nat)
    (plan : List Constraint) : ExecOutcome :=
  match execOnDisk fresh diskConflicts plan with
  | (m, true) => .success m
  | (m, false) => .conflictOnDisk m

/-- Modelled from the spec: the fallback policy — default behavior
attempts in-memory first; any failure triggers a full re-run of the same
plan with the on-disk strategy; a caller may force either strategy
exclusively, and forcing in-memory surfaces the conflict directly
(spec section 4.5, "Fallback policy"). -/
def executeRebasePlan (fresh : Nat → Nat) (memConflicts diskConflicts : List Nat)
    (opts : RebaseOptions) (plan : List Constraint) : ExecOutcome :=
  if opts.force_on_disk then execOnDiskOutcome fresh diskConflicts plan
  else
    match execInMemory fresh memConflicts plan with
    | some m => .success m
    | none =>
      if opts.force_in_memory then .conflictInMemory
      else execOnDiskOutcome fresh diskConflicts plan

/-! ## Repository state and command dispatch (spec sections 2, 3 and 6) -/

/-- Modelled from the spec: the mutable state owned by the system — the
references, the hidden set and the event log (spec section 3,
"Lifecycle"). -/
structure RepoState where
  refs : List (String × Nat)
  hidden : List Nat
  log : EventLog
deriving DecidableEq

/-- The per-invocation context: the freshly loaded graph snapshot, the
main branch tip, the current head, the abstract new-identifier function
and the conflict sets of the two strategies. -/
structure Ctx where
  graph : CommitGraph
  mainTip : Nat
  headCommit : Nat
  fresh : Nat → Nat
  memConflicts : List Nat
  diskConflicts : List Nat

/-- Modelled from the spec: the error taxonomy visible to a caller of the
core (spec section 7). -/
inductive CoreError where
  | constraintErr (e : ConstraintError)
  | planErr (e : PlanError)
  | execConflict
deriving DecidableEq

/-- Modelled from the spec: the commands the CLI layer hands to the core
(spec section 6). -/
inductive CoreCommand where
  | moveCmd (source base dest : Option Nat) (opts : RebaseOptions)
  | restackCmd (commits : List Nat) (opts : RebaseOptions)
  | hideCmd (commits : List Nat) (recursive : Bool)
  | unhideCmd (commits : List Nat) (recursive : Bool)

/-- The result of one command invocation: the caller-visible result and
the repository state after the call. -/
structure RunResult where
  result : Except CoreError Unit
  state : RepoState

/-- Look up the image of an identifier under a rewrite mapping. -/
def lookupMapping (m : List (Nat × Nat)) (x : Nat) : Option Nat :=
  (m.find? (fun p => p.1 == x)).map (fun p => p.2)

/-- Modelled from the spec: move every ref that pointed into the moved
subtree onto the rewritten counterpart (spec section 4.5). -/
def applyMapping (refs : List (String × Nat)) (m : List (Nat × Nat)) :
    List (String × Nat) :=
  refs.map (fun r => (r.1, (lookupMapping m r.2).getD r.2))

/-- Modelled from the spec: one RefUpdateEvent per ref moved by the
rewrite (spec section 4.5). -/
def refUpdateEvents (refs : List (String × Nat)) (m : List (Nat × Nat)) :
    List Event :=
  (refs.filter (fun r => (lookupMapping m r.2).isSome)).map
    (fun r => Event.refUpdateEv r.1 (some r.2) (lookupMapping m r.2))

/-- Modelled from the spec: on success, append one RewriteEvent per
operation plus the ref updates as one transaction batch and update the
refs; an in-memory conflict surfaces with no mutation; an on-disk
conflict leaves the partially-applied state for manual resolution
(spec sections 4.5 and 7). -/
def recordOutcome (st : RepoState) (outcome : ExecOutcome) : RunResult :=
  match outcome with
  | .success m =>
    { result := .ok (),
      state :=
        { refs := applyMapping st.refs m,
          hidden := st.hidden,
          log := commitBatch st.log
            (m.map (fun p => Event.rewriteEv p.1 p.2) ++ refUpdateEvents st.refs m) } }
  | .conflictInMemory => { result := .error .execConflict, state := st }
  | .conflictOnDisk m =>
    { result := .error .execConflict,
      state := { refs := applyMapping st.refs m, hidden := st.hidden, log := st.log } }

/-- Execute a plan under the fallback policy and record the outcome. -/
def execAndRecord (ctx : Ctx) (st : RepoState) (plan : List Constraint)
    (opts : RebaseOptions) : RunResult :=
  recordOutcome st
    (executeRebasePlan ctx.fresh ctx.memConflicts ctx.diskConflicts opts plan)

/-- Modelled from the spec: the move command — resolve the subtree, build
the constraints (pre-mutation validation), generate the plan, execute it
(spec sections 4.3-4.5). -/
def runMove (ctx : Ctx) (st : RepoState) (source base dest : Option Nat)
    (opts : RebaseOptions) : RunResult :=
  match resolveMoveSubtree ctx.graph ctx.mainTip ctx.headCommit source base with
  | .error e => { result := .error (.constraintErr e), state := st }
  | .ok subtree =>
    match buildMoveConstraints ctx.graph subtree (resolveDest dest ctx.headCommit) with
    | .error e => { result := .error (.constraintErr e), state := st }
    | .ok cs =>
      match buildPlan ctx.graph cs with
      | .error e => { result := .error (.planErr e), state := st }
      | .ok plan => execAndRecord ctx st plan opts

/-! ## Restack (spec sections 4.3 and 4.5) -/

/-- The old → new pairs recorded by the rewrite events of one batch. -/
def batchRewritePairs (b : List Event) : List (Nat × Nat) :=
  b.foldr
    (fun e acc =>
      match e with
      | .rewriteEv o n => (o, n) :: acc
      | _ => acc)
    []

/-- Whether a batch contains at least one rewrite event. -/
def hasRewriteEv (b : List Event) : Bool :=
  b.any (fun e =>
    match e with
    | .rewriteEv _ _ => true
    | _ => false)

/-- Modelled from the spec: the most recent RewriteMapping found by
scanning the event log backward (spec section 4.3). -/
def latestRewriteMapping (log : EventLog) : Option (List (Nat × Nat)) :=
  (log.batches.reverse.find? hasRewriteEv).map batchRewritePairs

/-- The old identifiers a rewrite mapping rewrote. -/
def mappingKeys (m : List (Nat × Nat)) : List Nat :=
  m.map (fun p => p.1)

/-- The new identifiers a rewrite mapping produced. -/
def mappingValues (m : List (Nat × Nat)) : List Nat :=
  m.map (fun p => p.2)

/-- Modelled from the spec: a commit is abandoned when its parent's
identity changed in the rewrite but the commit itself was not included in
the move — some parent appears as a key of the mapping while the commit
appears neither as a key nor as a value of it (spec section 4.5,
"Abandoned-commit detection"). -/
def isAbandoned (m : List (Nat × Nat)) (c : Commit) : Bool :=
  c.parents.any (fun p => decide (p ∈ mappingKeys m)) &&
    decide (c.id ∉ mappingKeys m) && decide (c.id ∉ mappingValues m)

/-- Modelled from the spec: all discoverable abandoned commits in the
loaded graph (spec section 4.3, restack inputs). -/
def abandonedCommits (g : CommitGraph) (m : List (Nat × Nat)) : List Nat :=
  (g.commits.filter (isAbandoned m)).map (fun c => c.id)

/-- Modelled from the spec: restack works on the explicitly given
abandoned commits, or, when none are given, on all discoverable abandoned
commits (spec section 4.3 and `opts.rs` lines 126-130). -/
def restackTargets (g : CommitGraph) (m : List (Nat × Nat))
    (given : List Nat) : List Nat :=
  if given.isEmpty then abandonedCommits g m else given

/-- Modelled from the spec: the destination for a restacked commit is the
original parent's image under the rewrite mapping (spec section 4.3). -/
def restackDest (g : CommitGraph) (m : List (Nat × Nat)) (c : Nat) :
    Option Nat :=
  (parentOf g c).bind (lookupMapping m)

/-- Modelled from the spec: the constraints restacking one abandoned
commit — its subtree moved onto the rewritten parent, failing with
`ConstraintError.noRewriteFound` when no mapping exists for the required
parent (spec section 4.3). -/
def restackConstraintsFor (g : CommitGraph) (m : List (Nat × Nat)) (c : Nat) :
    Except ConstraintError (List Constraint) :=
  match restackDest g m c with
  | none => .error .noRewriteFound
  | some d => .ok ((subtreeOf g c).map (constraintFor g (subtreeOf g c) d))

/-- Collect the restack constraints of every target. -/
def collectRestackConstraints (g : CommitGraph) (m : List (Nat × Nat)) :
    List Nat → Except ConstraintError (List Constraint)
  | [] => .ok []
  | c :: rest =>
    match restackConstraintsFor g m c, collectRestackConstraints g m rest with
    | .ok cs, .ok more => .ok (cs ++ more)
    | .error e, _ => .error e
    | .ok _, .error e => .error e

/-- Modelled from the spec: the restack command (spec sections 4.3-4.5
and `opts.rs` lines 126-151). -/
def runRestack (ctx : Ctx) (st : RepoState) (commits : List Nat)
    (opts : RebaseOptions) : RunResult :=
  let m := (latestRewriteMapping st.log).getD []
  match collectRestackConstraints ctx.graph m (restackTargets ctx.graph m commits) with
  | .error e => { result := .error (.constraintErr e), state := st }
  | .ok cs =>
    match buildPlan ctx.graph cs with
    | .error e => { result := .error (.planErr e), state := st }
    | .ok plan => execAndRecord ctx st plan opts

/-- Modelled from the spec: the hide command — mark the targets hidden and
append one HideEvent per affected commit as one transaction batch
(spec section 4.2). -/
def runHide (ctx : Ctx) (st : RepoState) (commits : List Nat)
    (recursive : Bool) : RunResult :=
  let targets := hideTargets ctx.graph commits recursive
  let newly := targets.filter (fun x => decide (x ∉ st.hidden))
  { result := .ok (),
    state :=
      { refs := st.refs,
        hidden := hideCommits ctx.graph commits recursive st.hidden,
        log := commitBatch st.log (newly.map Event.hideEv) } }

/-- Modelled from the spec: the unhide command — symmetric removal, one
UnhideEvent per affected commit in one transaction batch
(spec section 4.2). -/
def runUnhide (ctx : Ctx) (st : RepoState) (commits : List Nat)
    (recursive : Bool) : RunResult :=
  let targets := hideTargets ctx.graph commits recursive
  let removed := st.hidden.filter (fun x => decide (x ∈ targets))
  { result := .ok (),
    state :=
      { refs := st.refs,
        hidden := unhideCommits ctx.graph commits recursive st.hidden,
        log := commitBatch st.log (removed.map Event.unhideEv) } }

/-- Modelled from the spec: dispatch of one core command invocation
(spec section 6). -/
def runCommand (ctx : Ctx) (cmd : CoreCommand) (st : RepoState) : RunResult :=
  match cmd with
  | .moveCmd s b d opts => runMove ctx st s b d opts
  | .restackCmd cs opts => runRestack ctx st cs opts
  | .hideCmd cs r => runHide ctx st cs r
  | .unhideCmd cs r => runUnhide ctx st cs r

/-! ## The CLI argument surface (`src/src/opts.rs`) -/

/-- The arguments of `Command::Move` (`opts.rs` lines 88-124): optional
source, base (declared `conflicts_with = "source"`, line 97), optional
destination, `--in-memory` (declared `conflicts_with = "force-on-disk"`,
line 107), `--on-disk`, and the two debug dump flags. -/
structure MoveArgs where
  source : Option String
  base : Option String
  dest : Option String
  force_in_memory : Bool
  force_on_disk : Bool
  dump_rebase_constraints : Bool
  dump_rebase_plan : Bool
deriving DecidableEq

/-- The arguments of `Command::Restack` (`opts.rs` lines 127-151):
commit list, `--in-memory` (declared `conflicts_with = "force-on-disk"`,
line 134), `--on-disk`, and the two debug dump flags. -/
structure RestackArgs where
  commits : List String
  force_in_memory : Bool
  force_on_disk : Bool
  dump_rebase_constraints : Bool
  dump_rebase_plan : Bool
deriving DecidableEq

/-- The clap parser rejects an argument assignment in which an argument
appears together with one it is declared to conflict with; for
`Command::Move` the declared conflicts are base/source and
in-memory/on-disk (`opts.rs` lines 97 and 107). -/
def validateMoveArgs (a : MoveArgs) : Option MoveArgs :=
  if (a.base.isSome && a.source.isSome) || (a.force_in_memory && a.force_on_disk) then
    none
  else
    some a

/-- The clap parser validation for `Command::Restack`: the declared
conflict is in-memory/on-disk (`opts.rs` line 134). -/
def validateRestackArgs (a : RestackArgs) : Option RestackArgs :=
  if a.force_in_memory && a.force_on_disk then none else some a

/-! ## Helper lemmas about successful command invocations -/

theorem execAndRecord_ok_log (ctx : Ctx) (st : RepoState) (plan : List Constraint)
    (opts : RebaseOptions)
    (hok : (execAndRecord ctx st plan opts).result = .ok ()) :
    ∃ bb, (execAndRecord ctx st plan opts).state.log = commitBatch st.log bb := by
  unfold execAndRecord recordOutcome at hok ⊢
  split at hok
  · exact ⟨_, rfl⟩
  · simp at hok
  · simp at hok

theorem runCommand_ok_log (ctx : Ctx) (cmd : CoreCommand) (st : RepoState)
    (res : RunResult) (h : runCommand ctx cmd st = res)
    (hok : res.result = .ok ()) :
    ∃ bb, res.state.log = commitBatch st.log bb := by
  cases cmd with
  | moveCmd s b d opts =>
    simp only [runCommand, runMove] at h
    split at h
    · rw [← h] at hok; simp at hok
    · split at h
      · rw [← h] at hok; simp at hok
      · split at h
        · rw [← h] at hok; simp at hok
        · subst h
          exact execAndRecord_ok_log ctx st _ opts hok
  | restackCmd cs opts =>
    simp only [runCommand, runRestack] at h
    split at h
    · rw [← h] at hok; simp at hok
    · split at h
      · rw [← h] at hok; simp at hok
      · subst h
        exact execAndRecord_ok_log ctx st _ opts hok
  | hideCmd cs r =>
    simp only [runCommand, runHide] at h
    subst h
    exact ⟨_, rfl⟩
  | unhideCmd cs r =>
    simp only [runCommand, runUnhide] at h
    subst h
    exact ⟨_, rfl⟩

/-! ## Concrete instances used by the witnesses and the counterexample -/

/-- A two-commit graph: commit 0 is the root, commit 1 is its child. -/
def gTwo : CommitGraph := ⟨[⟨0, [], 0⟩, ⟨1, [0], 1⟩]⟩

/-- The empty event log. -/
def logEmpty : EventLog := ⟨[], 0⟩

/-- An initial repository state with no refs, nothing hidden, empty log. -/
def st0 : RepoState := ⟨[], [], logEmpty⟩

/-- A context whose in-memory strategy conflicts on commit 1. -/
def ctxC1 : Ctx := ⟨gTwo, 0, 0, fun n => n + 100, [1], []⟩

/-- A conflict-free context over the two-commit graph. -/
def ctxC2 : Ctx := ⟨gTwo, 0, 0, fun n => n + 100, [], []⟩

/-- A one-operation plan: reparent commit 1 onto commit 0. -/
def planC1 : List Constraint := [⟨1, 0⟩]

/-- A three-commit linear stack with distinct timestamps. -/
def gPlan : CommitGraph := ⟨[⟨0, [], 0⟩, ⟨1, [0], 10⟩, ⟨2, [1], 20⟩]⟩

/-- Constraints moving the stack 1→2 onto commit 0, listed in
reverse-dependency order on purpose. -/
def csPlan : List Constraint := [⟨2, 1⟩, ⟨1, 0⟩]

/-- A graph with one abandoned commit (1, whose parent 0 was rewritten)
and one unrelated commit (2, whose parent was not rewritten). -/
def gNine : CommitGraph := ⟨[⟨0, [], 0⟩, ⟨1, [0], 1⟩, ⟨2, [5], 2⟩]⟩

/-- A rewrite mapping recording that commit 0 became commit 10. -/
def mNine : List (Nat × Nat) := [(0, 10)]

/-- Move arguments with no flags set. -/
def moveArgsNone : MoveArgs := ⟨none, none, none, false, false, false, false⟩

/-- Restack arguments with no flags set. -/
def restackArgsNone : RestackArgs := ⟨[], false, false, false, false⟩

/-! ## The claims -/

/-- C1: under the default strategy selection (neither `force_in_memory`
nor `force_on_disk`), a failure of the in-memory attempt triggers a full
re-run of the same plan with the on-disk strategy starting from the
original repository state, the discarded in-memory attempt leaving no
visible effect; with `force_in_memory` set the conflict is surfaced
directly to the caller with no partial mutation and no fallback. -/
theorem spec2_c1 (ctx : Ctx) (st : RepoState) (plan : List Constraint)
    (h : execInMemory ctx.fresh ctx.memConflicts plan = none) :
    execAndRecord ctx st plan { force_in_memory := false, force_on_disk := false } =
      recordOutcome st (execOnDiskOutcome ctx.fresh ctx.diskConflicts plan)
    ∧ execAndRecord ctx st plan { force_in_memory := true, force_on_disk := false } =
      { result := .error .execConflict, state := st } := by
  constructor
  · simp [execAndRecord, executeRebasePlan, h]
  · simp [execAndRecord, executeRebasePlan, recordOutcome, h]

theorem spec2_c1_witness :
    execInMemory ctxC1.fresh ctxC1.memConflicts planC1 = none
    ∧ (execAndRecord ctxC1 st0 planC1 { force_in_memory := false, force_on_disk := false } =
        recordOutcome st0 (execOnDiskOutcome ctxC1.fresh ctxC1.diskConflicts planC1)
      ∧ execAndRecord ctxC1 st0 planC1 { force_in_memory := true, force_on_disk := false } =
        { result := .error .execConflict, state := st0 }) :=
  ⟨rfl, spec2_c1 ctxC1 st0 planC1 rfl⟩

/-- C2: a move whose destination lies inside the moving subtree or is a
descendant of a subtree member fails with `ConstraintError.cyclicMove`
and performs no mutation: the returned state, refs included, is the state
before the call. -/
theorem spec2_c2 (ctx : Ctx) (st : RepoState) (source base dest : Option Nat)
    (opts : RebaseOptions) (subtree : List Nat)
    (h1 : resolveMoveSubtree ctx.graph ctx.mainTip ctx.headCommit source base = .ok subtree)
    (h2 : isCyclicDest ctx.graph subtree (resolveDest dest ctx.headCommit) = true) :
    runCommand ctx (.moveCmd source base dest opts) st =
      { result := .error (.constraintErr .cyclicMove), state := st } := by
  have hbc : buildMoveConstraints ctx.graph subtree (resolveDest dest ctx.headCommit) =
      .error .cyclicMove := by
    unfold buildMoveConstraints
    rw [if_pos h2]
  simp [runCommand, runMove, h1, hbc]

theorem spec2_c2_witness :
    (resolveMoveSubtree ctxC2.graph ctxC2.mainTip ctxC2.headCommit (some 0) none = .ok [0, 1]
      ∧ isCyclicDest ctxC2.graph [0, 1] (resolveDest (some 1) ctxC2.headCommit) = true)
    ∧ runCommand ctxC2 (.moveCmd (some 0) none (some 1) ⟨false, false⟩) st0 =
        { result := .error (.constraintErr .cyclicMove), state := st0 } :=
  ⟨⟨rfl, rfl⟩, spec2_c2 ctxC2 st0 (some 0) none (some 1) ⟨false, false⟩ [0, 1] rfl rfl⟩

/-- C3 counterexample: with commit 1 (child of 0) already hidden,
`hide(0, recursive)` followed by `unhide(0, recursive)` does not restore
the pre-hide hidden set — the unconditional recursive unhide also reveals
the independently-hidden commit 1. -/
theorem spec2_c3_counterexample :
    ¬ (unhideCommits gTwo [0] true (hideCommits gTwo [0] true [1]) = [1]) := by
  decide

/-- C3 (amended): `hide(C, recursive)` then `unhide(C, recursive)`
restores exactly the pre-hide hidden set provided no member of C's
subtree was already hidden before the hide call; unhide removes C and all
of C's descendants from the hidden set unconditionally, not only those
hidden because of C. -/
theorem spec2_c3 (g : CommitGraph) (c : Nat) (hidden : List Nat)
    (h : ∀ x ∈ hideTargets g [c] true, x ∉ hidden) :
    unhideCommits g [c] true (hideCommits g [c] true hidden) = hidden
    ∧ ∀ d ∈ hideTargets g [c] true,
        d ∉ unhideCommits g [c] true (hideCommits g [c] true hidden) := by
  constructor
  · unfold hideCommits unhideCommits
    rw [List.filter_append]
    have h1 : hidden.filter (fun x => decide (x ∉ hideTargets g [c] true)) = hidden := by
      apply List.filter_eq_self.mpr
      intro a ha
      simp only [decide_eq_true_eq]
      intro hmem
      exact h a hmem ha
    have h2 : (((hideTargets g [c] true).filter (fun x => decide (x ∉ hidden))).filter
        (fun x => decide (x ∉ hideTargets g [c] true))) = [] := by
      apply List.filter_eq_nil_iff.mpr
      intro a ha
      have : a ∈ hideTargets g [c] true := (List.mem_filter.mp ha).1
      simp only [decide_eq_true_eq, Decidable.not_not]
      exact this
    rw [h1, h2, List.append_nil]
  · intro d hd hmem
    have := (List.mem_filter.mp hmem).2
    simp only [decide_eq_true_eq] at this
    exact this hd

theorem spec2_c3_witness :
    (∀ x ∈ hideTargets gTwo [0] true, x ∉ ([] : List Nat))
    ∧ (unhideCommits gTwo [0] true (hideCommits gTwo [0] true []) = []
      ∧ ∀ d ∈ hideTargets gTwo [0] true,
          d ∉ unhideCommits gTwo [0] true (hideCommits gTwo [0] true [])) :=
  ⟨by decide, spec2_c3 gTwo 0 [] (by decide)⟩

/-- C4: every successful command invocation appends exactly one
transaction batch to the event log, and the core's `undo` followed by
`redo` brings the log — and therefore the replayed ref and visibility
state — back byte-identical to immediately after the command. -/
theorem spec2_c4 (ctx : Ctx) (cmd : CoreCommand) (st : RepoState)
    (h : (runCommand ctx cmd st).result = .ok ()) :
    (runCommand ctx cmd st).state.log.batches.length = st.log.batches.length + 1
    ∧ redo (undo ((runCommand ctx cmd st).state.log)) = (runCommand ctx cmd st).state.log
    ∧ replayState (redo (undo ((runCommand ctx cmd st).state.log))) =
        replayState ((runCommand ctx cmd st).state.log) := by
  obtain ⟨bb, hlog⟩ := runCommand_ok_log ctx cmd st (runCommand ctx cmd st) rfl h
  rw [hlog]
  exact ⟨commitBatch_batches_length st.log bb, redo_undo_commitBatch st.log bb,
    by rw [redo_undo_commitBatch]⟩

theorem spec2_c4_witness :
    (runCommand ctxC2 (.hideCmd [1] false) st0).result = .ok ()
    ∧ ((runCommand ctxC2 (.hideCmd [1] false) st0).state.log.batches.length =
          st0.log.batches.length + 1
      ∧ redo (undo ((runCommand ctxC2 (.hideCmd [1] false) st0).state.log)) =
          (runCommand ctxC2 (.hideCmd [1] false) st0).state.log
      ∧ replayState (redo (undo ((runCommand ctxC2 (.hideCmd [1] false) st0).state.log))) =
          replayState ((runCommand ctxC2 (.hideCmd [1] false) st0).state.log)) :=
  ⟨rfl, spec2_c4 ctxC2 (.hideCmd [1] false) st0 rfl⟩

/-- C5: recursive hide hides every descendant reachable via child edges
regardless of each descendant's current hidden state — membership in the
result depends on the prior hidden set only by union, so an
already-hidden intermediate commit never stops the recursion, and the
whole operation is idempotent. -/
theorem spec2_c5 (g : CommitGraph) (ids hidden : List Nat) (d i : Nat)
    (h1 : i ∈ ids) (h2 : Reaches g i d) :
    d ∈ hideCommits g ids true hidden
    ∧ (∀ x, x ∈ hideCommits g ids true hidden ↔
        x ∈ hidden ∨ x ∈ hideTargets g ids true)
    ∧ hideCommits g ids true (hideCommits g ids true hidden) =
        hideCommits g ids true hidden := by
  have hiff : ∀ x, x ∈ hideCommits g ids true hidden ↔
      x ∈ hidden ∨ x ∈ hideTargets g ids true := by
    intro x
    unfold hideCommits
    simp only [List.mem_append, List.mem_filter, decide_eq_true_eq]
    constructor
    · rintro (hx | ⟨hx, _⟩)
      · exact Or.inl hx
      · exact Or.inr hx
    · rintro (hx | hx)
      · exact Or.inl hx
      · by_cases hh : x ∈ hidden
        · exact Or.inl hh
        · exact Or.inr ⟨hx, hh⟩
  have htgt : d ∈ hideTargets g ids true := by
    show d ∈ (ids.map (subtreeOf g)).flatten
    exact List.mem_flatten.mpr
      ⟨subtreeOf g i, List.mem_map.mpr ⟨i, h1, rfl⟩, reaches_mem_subtree h2⟩
  refine ⟨(hiff d).mpr (Or.inr htgt), hiff, ?_⟩
  unfold hideCommits
  have hnil : ((hideTargets g ids true).filter
      (fun x => decide (x ∉ hidden ++ (hideTargets g ids true).filter
        (fun y => decide (y ∉ hidden))))) = [] := by
    apply List.filter_eq_nil_iff.mpr
    intro a ha
    simp only [decide_eq_true_eq, Decidable.not_not, List.mem_append, List.mem_filter]
    by_cases hh : a ∈ hidden
    · exact Or.inl hh
    · exact Or.inr ⟨ha, by simp [hh]⟩
  rw [hnil, List.append_nil]

theorem spec2_c5_witness :
    (0 ∈ [0] ∧ Reaches gTwo 0 1)
    ∧ (1 ∈ hideCommits gTwo [0] true []
      ∧ (∀ x, x ∈ hideCommits gTwo [0] true [] ↔
          x ∈ ([] : List Nat) ∨ x ∈ hideTargets gTwo [0] true)
      ∧ hideCommits gTwo [0] true (hideCommits gTwo [0] true []) =
          hideCommits gTwo [0] true []) :=
  ⟨⟨by decide, Reaches.step (Reaches.refl 0) (by decide)⟩,
   spec2_c5 gTwo [0] [] 1 0 (by decide) (Reaches.step (Reaches.refl 0) (by decide))⟩

/-- C6: supplying both a source commit and a base commit to move is a
configuration error — the call fails with
`ConstraintError.ambiguousSourceBase` and the state is returned
untouched, before any mutation. -/
theorem spec2_c6 (ctx : Ctx) (st : RepoState) (s b : Nat) (dest : Option Nat)
    (opts : RebaseOptions) :
    runCommand ctx (.moveCmd (some s) (some b) dest opts) st =
      { result := .error (.constraintErr .ambiguousSourceBase), state := st } := rfl

/-- C7: with neither source nor base given, move uses the current head as
the base, so the moving subtree is the enclosing stack of the head
(identical to passing base = head), and with no destination given the
destination defaults to the current head. -/
theorem spec2_c7 (g : CommitGraph) (mainTip headCommit : Nat) :
    resolveMoveSubtree g mainTip headCommit none none =
      .ok (enclosingStack g mainTip headCommit)
    ∧ resolveMoveSubtree g mainTip headCommit none none =
        resolveMoveSubtree g mainTip headCommit none (some headCommit)
    ∧ resolveDest none headCommit = headCommit :=
  ⟨rfl, rfl, rfl⟩

/-- C8: every plan the generator produces is a valid topological order —
an operation whose new-parent is produced by another operation of the
plan appears strictly after that producer — with ties between
independently-orderable commits broken by ascending original timestamp,
then identifier; the plan is exactly the constrained commits, and the
generator is a pure function of the constraint set and the graph, hence
deterministic. -/
theorem spec2_c8 (g : CommitGraph) (constraints plan : List Constraint)
    (h : buildPlan g constraints = .ok plan) : planOk g constraints plan :=
  buildPlan_planOk h

theorem spec2_c8_witness :
    buildPlan gPlan csPlan = .ok [⟨1, 0⟩, ⟨2, 1⟩]
    ∧ planOk gPlan csPlan [⟨1, 0⟩, ⟨2, 1⟩] :=
  ⟨rfl, spec2_c8 gPlan csPlan [⟨1, 0⟩, ⟨2, 1⟩] rfl⟩

/-- C9: a restack invocation with no explicit identifiers targets exactly
the discoverable abandoned commits; every restacked commit is abandoned
because one of its parents was rewritten (so siblings of unmoved parents
are never touched); a commit none of whose parents was rewritten is never
abandoned; the destination is the original parent's image under the
rewrite mapping; and the mapping used is the most recent one found by
scanning the event log backward. -/
theorem spec2_c9 (g : CommitGraph) (m : List (Nat × Nat)) (log : EventLog)
    (b : List Event) :
    restackTargets g m [] = abandonedCommits g m
    ∧ (∀ x ∈ restackTargets g m [], ∃ c, c ∈ g.commits ∧ c.id = x
        ∧ c.parents.any (fun p => decide (p ∈ mappingKeys m)) = true)
    ∧ (∀ c : Commit, c.parents.all (fun p => decide (p ∉ mappingKeys m)) = true →
        isAbandoned m c = false)
    ∧ (∀ x p n, parentOf g x = some p → lookupMapping m p = some n →
        restackDest g m x = some n)
    ∧ (hasRewriteEv b = true →
        latestRewriteMapping (commitBatch log b) = some (batchRewritePairs b)) := by
  refine ⟨rfl, ?_, ?_, ?_, ?_⟩
  · intro x hx
    have hx' : x ∈ abandonedCommits g m := hx
    unfold abandonedCommits at hx'
    rcases List.mem_map.mp hx' with ⟨c, hcmem, hid⟩
    have hfil := List.mem_filter.mp hcmem
    have hab := hfil.2
    unfold isAbandoned at hab
    simp only [Bool.and_eq_true] at hab
    exact ⟨c, hfil.1, hid, hab.1.1⟩
  · intro c hall
    unfold isAbandoned
    have hany : c.parents.any (fun p => decide (p ∈ mappingKeys m)) = false := by
      rw [List.any_eq_false]
      intro p hp
      have := List.all_eq_true.mp hall p hp
      simp only [decide_eq_true_eq] at this ⊢
      exact this
    rw [hany]
    rfl
  · intro x p n hp hl
    unfold restackDest
    rw [hp]
    simpa using hl
  · intro hb
    unfold latestRewriteMapping commitBatch
    simp only [List.reverse_append, List.reverse_cons, List.reverse_nil,
      List.nil_append, List.singleton_append]
    rw [List.find?_cons_of_pos _ hb]
    rfl

theorem spec2_c9_witness :
    (1 ∈ restackTargets gNine mNine []
      ∧ (parentOf gNine 1 = some 0 ∧ lookupMapping mNine 0 = some 10)
      ∧ hasRewriteEv [Event.rewriteEv 0 10] = true)
    ∧ ((∃ c, c ∈ gNine.commits ∧ c.id = 1
        ∧ c.parents.any (fun p => decide (p ∈ mappingKeys mNine)) = true)
      ∧ restackDest gNine mNine 1 = some 10
      ∧ latestRewriteMapping (commitBatch logEmpty [Event.rewriteEv 0 10]) =
          some (batchRewritePairs [Event.rewriteEv 0 10])) :=
  ⟨⟨by decide, ⟨rfl, rfl⟩, rfl⟩,
   ⟨(spec2_c9 gNine mNine logEmpty [Event.rewriteEv 0 10]).2.1 1 (by decide),
    (spec2_c9 gNine mNine logEmpty [Event.rewriteEv 0 10]).2.2.2.1 1 0 10 rfl rfl,
    (spec2_c9 gNine mNine logEmpty [Event.rewriteEv 0 10]).2.2.2.2 rfl⟩⟩

/-- C10: the argument parser never hands the core a move or restack
invocation with both `force_in_memory` and `force_on_disk` set — any
argument assignment that survives the declared-conflict validation has at
most one of the two strategy-forcing flags. -/
theorem spec2_c10 (a : MoveArgs) (b : RestackArgs) (a2 : MoveArgs)
    (b2 : RestackArgs) (h1 : validateMoveArgs a = some a2)
    (h2 : validateRestackArgs b = some b2) :
    (a2.force_in_memory && a2.force_on_disk) = false
    ∧ (b2.force_in_memory && b2.force_on_disk) = false := by
  unfold validateMoveArgs at h1
  unfold validateRestackArgs at h2
  split at h1
  · simp at h1
  · rename_i hcond1
    simp only [Option.some.injEq] at h1
    subst h1
    split at h2
    · simp at h2
    · rename_i hcond2
      simp only [Option.some.injEq] at h2
      subst h2
      constructor
      · revert hcond1
        cases a.force_in_memory <;> cases a.force_on_disk <;> simp
      · revert hcond2
        cases b.force_in_memory <;> cases b.force_on_disk <;> simp

theorem spec2_c10_witness :
    (validateMoveArgs moveArgsNone = some moveArgsNone
      ∧ validateRestackArgs restackArgsNone = some restackArgsNone)
    ∧ ((moveArgsNone.force_in_memory && moveArgsNone.force_on_disk) = false
      ∧ (restackArgsNone.force_in_memory && restackArgsNone.force_on_disk) = false) :=
  ⟨⟨rfl, rfl⟩,
   spec2_c10 moveArgsNone restackArgsNone moveArgsNone restackArgsNone rfl rfl⟩
